import Mathlib

/-!
Verification of the Aurora Member QA answer-decision pipeline
(src/aurora_app/qa.py and src/aurora_app/extractors/extractors.py),
shallowly embedded in Lean 4.

Strings are modelled as Lean strings; the Python string primitives used by
the source (str.strip, str.lower, substring containment via the in operator,
str.find, str.split, regex word tokenization) are given explicit executable
definitions over character lists.  Relevance scores (numpy floats produced by
the external sklearn TF-IDF vectorizer and linear kernel) are modelled as
rationals, and the fitted vectorizer plus document matrix are modelled as an
abstract scoring function supplied at build time.
-/

namespace Aurora

/-! ### Python string primitives -/

/-- Python str.isspace test used by strip and lstrip. -/
def isSpace (c : Char) : Bool := c.isWhitespace

/-- Python str.lstrip over a character list. -/
def lstripL (l : List Char) : List Char := l.dropWhile isSpace

/-- Python str.strip over a character list. -/
def stripL (l : List Char) : List Char :=
  ((l.dropWhile isSpace).reverse.dropWhile isSpace).reverse

/-- Python str.strip on strings. -/
def pyStrip (s : String) : String := String.mk (stripL s.toList)

/-- Python str.lower on strings (ASCII-faithful model). -/
def pyLower (s : String) : String := String.mk (s.toList.map Char.toLower)

/-- Python str.startswith over character lists. -/
def startsWithL : List Char → List Char → Bool
  | [], _ => true
  | _ :: _, [] => false
  | p :: ps, c :: cs => p == c && startsWithL ps cs

/-- Python substring containment (the in operator) over character lists. -/
def containsL (pat : List Char) : List Char → Bool
  | [] => startsWithL pat []
  | c :: cs => startsWithL pat (c :: cs) || containsL pat cs

/-- Python substring containment on strings. -/
def isSubstring (needle hay : String) : Bool := containsL needle.toList hay.toList

/-- Python str.find for a pattern: index of the first occurrence, none when
the pattern does not occur (Python returns -1 there). -/
def findSubIdx (pat : List Char) : List Char → Option Nat
  | [] => if startsWithL pat [] then some 0 else none
  | c :: cs =>
    if startsWithL pat (c :: cs) then some 0
    else (findSubIdx pat cs).map (· + 1)

/-- Python str.split on a single-character separator: every occurrence
splits, empty pieces are kept. -/
def splitOnChar (sep : Char) : List Char → List (List Char)
  | [] => [[]]
  | c :: cs =>
    if c == sep then [] :: splitOnChar sep cs
    else
      match splitOnChar sep cs with
      | [] => [[c]]
      | h :: t => (c :: h) :: t

/-- Membership of a regex word character, the \w class over ASCII. -/
def isWordChar (c : Char) : Bool := c.isAlphanum || c == '_'

/-- Maximal runs of word characters, modelling re.findall with the \w+
pattern. -/
def wordRunsAux : List Char → List Char → List (List Char)
  | [], acc => if acc.isEmpty then [] else [acc.reverse]
  | c :: cs, acc =>
    if isWordChar c then wordRunsAux cs (c :: acc)
    else if acc.isEmpty then wordRunsAux cs []
    else acc.reverse :: wordRunsAux cs []

/-- Word tokens of a string: re.findall of \w+ runs. -/
def wordTokens (s : String) : List String :=
  (wordRunsAux s.toList []).map String.mk

/-! ### QASystem constants (qa.py __init__) -/

/-- Fixed message returned when no corpus or index is available. -/
def noDataMsg : String :=
  "I don\x27t have any member messages to answer from yet. Please try again later."

/-- Fixed message returned on an empty (trimmed) question. -/
def emptyQuestionMsg : String := "Question has no meaningful content."

/-- Fixed message returned when the data does not support an answer. -/
def notAvailableMsg : String :=
  "The information is not available in the member messages."

/-- The stopword set used for overlap checks, copied from qa.py. -/
def stopwords : List String :=
  ["the", "a", "an", "and", "or", "but", "if", "then", "else",
   "is", "am", "are", "was", "were", "be", "been", "being",
   "to", "of", "in", "on", "at", "for", "with", "by", "from",
   "as", "it", "this", "that", "these", "those",
   "do", "does", "did", "doing",
   "have", "has", "had", "having",
   "i", "you", "he", "she", "we", "they", "them", "him", "her",
   "my", "your", "his", "their", "our",
   "me", "us",
   "what", "when", "where", "why", "how",
   "many", "much",
   "please", "can", "could", "would", "should",
   "member", "user", "message", "timestamp", "id", "user_id"]

/-- The synonym groups for important topics, copied from qa.py. -/
def topic_groups : List (List String) :=
  [["car", "cars", "vehicle", "vehicles", "garage", "truck", "suv", "sedan"],
   ["restaurant", "restaurants", "dinner", "lunch", "brunch",
    "cafe", "bistro", "eat", "food", "dining", "table", "reservation"],
   ["trip", "travel", "flight", "vacation", "holiday", "london", "journey"]]

/-! ### QASystem internal helpers (qa.py) -/

/-- The name region computed inside _extract_user_name: the text after the
User: label, left-stripped, cut at the first space-pipe occurrence or at the
end of the string, and stripped. -/
def extractNameRegion (doc : String) : List Char :=
  match findSubIdx " |".toList (lstripL (doc.toList.drop 5)) with
  | none => stripL (lstripL (doc.toList.drop 5))
  | some endIdx => stripL ((lstripL (doc.toList.drop 5)).take endIdx)

/-- QASystem._extract_user_name: the member name of a document, present only
when the document starts with the User: label. -/
def extract_user_name (doc : String) : Option String :=
  if startsWithL "User:".toList doc.toList then
    if (extractNameRegion doc).isEmpty then none
    else some (String.mk (extractNameRegion doc))
  else none

/-- Python truthiness of an optional string: present and non-empty. -/
def truthy : Option String → Bool
  | some s => s ≠ ""
  | none => false

/-- Python x or None on an optional string result. -/
def orNone : Option String → Option String
  | some s => if s = "" then none else some s
  | none => none

/-- One step of the field-assignment loop in QASystem._parse_doc_fields;
later segments overwrite earlier ones, as the Python loop does. -/
def parseFieldStep (acc : Option String × Option String × Option String)
    (part : List Char) : Option String × Option String × Option String :=
  if startsWithL "User:".toList part then
    (some (String.mk (stripL (part.drop 5))), acc.2.1, acc.2.2)
  else if startsWithL "Timestamp:".toList part then
    (acc.1, some (String.mk (stripL (part.drop 10))), acc.2.2)
  else if startsWithL "Message:".toList part then
    (acc.1, acc.2.1, some (String.mk (stripL (part.drop 8))))
  else acc

/-- The assignment loop of _parse_doc_fields: split the document on the pipe
delimiter, strip each part, and fold the field assignments. -/
def parsedFields (doc : String) :
    Option String × Option String × Option String :=
  ((splitOnChar '|' doc.toList).map stripL).foldl parseFieldStep
    (none, none, none)

/-- QASystem._parse_doc_fields: the assignment loop followed by the trailing
x or None coercions of the return statement. -/
def parse_doc_fields (doc : String) :
    Option String × Option String × Option String :=
  (orNone (parsedFields doc).1, orNone (parsedFields doc).2.1,
   orNone (parsedFields doc).2.2)

/-- QASystem._tokenize: lowercase word tokens with stopwords removed.  The
Python set is modelled as a list; every use is membership-based, so
duplicates are irrelevant. -/
def tokenize (text : String) : List String :=
  (wordTokens (pyLower text)).filter (fun t => ¬ stopwords.contains t)

/-- The name tokens discarded by _topic_overlap_ok: word tokens of the
member name when one is known, nothing otherwise. -/
def namePartsOf (user_name : Option String) : List String :=
  if truthy user_name then wordTokens (pyLower (user_name.getD "")) else []

/-- The token set of a text after the discard loop of _topic_overlap_ok:
tokenized, with the member name word tokens removed. -/
def strippedTokens (name_parts : List String) (text : String) : List String :=
  (tokenize text).filter (fun t => ¬ name_parts.contains t)

/-- QASystem._topic_overlap_ok: direct content overlap, or overlap through a
synonym group, after discarding the member name tokens from both sides. -/
def topic_overlap_ok (question answer_doc : String)
    (user_name : Option String) : Bool :=
  if (strippedTokens (namePartsOf user_name) question).any
      (fun t => (strippedTokens (namePartsOf user_name) answer_doc).contains t)
  then true
  else topic_groups.any (fun g =>
    (strippedTokens (namePartsOf user_name) question).any (fun t => g.contains t)
    && (strippedTokens (namePartsOf user_name) answer_doc).any
         (fun t => g.contains t))

/-! ### Name resolution (qa.py answer, step 1) -/

/-- Step 1a of QASystem.answer: positions whose member name occurs,
lowercased, as a substring of the lowercased question. -/
def fullMatchIndices (qLower : String) (names : List (Option String)) :
    List Nat :=
  (List.range names.length).filter (fun i =>
    match names.getD i none with
    | some nm => truthy (some nm) && isSubstring (pyLower nm) qLower
    | none => false)

/-- Name tokens used by the token-based fallback: lowercase word tokens of
length at least 3. -/
def nameTokens (nm : String) : List String :=
  (wordTokens (pyLower nm)).filter (fun t => 3 ≤ t.length)

/-- The token-match test of step 1b: a truthy name whose tokens meet the
question token set. -/
def tokenMatchCond (qTokens : List String) (nm : String) : Bool :=
  truthy (some nm) && (nameTokens nm).any (fun t => qTokens.contains t)

/-- Step 1b of QASystem.answer: the (name, position) pairs whose name tokens
meet the question tokens, in position order; the Python dict groups these
pairs by the original name string. -/
def tokenMatches (names : List (Option String)) (qTokens : List String) :
    List (String × Nat) :=
  (List.range names.length).filterMap (fun i =>
    match names.getD i none with
    | some nm => if tokenMatchCond qTokens nm then some (nm, i) else none
    | none => none)

/-- The name-resolution step of QASystem.answer: candidate positions plus the
restricted_by_name flag.  Full-name substring matching first; otherwise the
token fallback restricts only when exactly one distinct member name matches,
and falls back to the whole position range when zero or several do. -/
def resolve (numDocs : Nat) (names : List (Option String))
    (qLower : String) (qTokens : List String) : List Nat × Bool :=
  if ¬ (fullMatchIndices qLower names).isEmpty then
    (fullMatchIndices qLower names, true)
  else if (((tokenMatches names qTokens).map Prod.fst).dedup).length = 1 then
    ((tokenMatches names qTokens).map Prod.snd, true)
  else (List.range numDocs, false)

/-! ### Scoring and selection (qa.py answer, step 2) -/

/-- Zeroing of scores at positions outside the candidate list, skipped when
the candidates cover the whole corpus (qa.py lines 253-258). -/
def applyMask (numDocs : Nat) (cands : List Nat) (scores : List ℚ) :
    List ℚ :=
  if ¬ cands.isEmpty ∧ cands.length < numDocs then
    scores.mapIdx (fun i s => if cands.contains i then s else 0)
  else scores

/-- numpy argmax: the first index attaining the maximal value. -/
def argmaxIdx (l : List ℚ) : Nat :=
  (List.range l.length).foldl
    (fun best i => if l.getD best 0 < l.getD i 0 then i else best) 0

/-- The similarity threshold of qa.py line 270: 0.05 when restricted by
name, 0.15 otherwise (written with mkRat so that the kernel can evaluate
comparisons). -/
def minScore (restricted_by_name : Bool) : ℚ :=
  if restricted_by_name then mkRat 5 100 else mkRat 15 100

/-! ### Answer formatting (qa.py answer, step 4) -/

/-- Step 4 of QASystem.answer: join the parsed segments, or fall back to the
raw document when parsing produced nothing. -/
def formatAnswer (best_doc : String)
    (user_name timestamp message : Option String) : String :=
  if ¬ truthy user_name ∧ ¬ truthy timestamp ∧ ¬ truthy message then best_doc
  else
    let parts :=
      (if truthy user_name then ["Member: " ++ user_name.getD ""] else []) ++
      (if truthy timestamp then ["Timestamp: " ++ timestamp.getD ""] else []) ++
      (if truthy message then ["Message: " ++ message.getD ""] else [])
    if ¬ parts.isEmpty then String.intercalate " | " parts else best_doc

/-! ### System state, build and answer -/

/-- The mutable state of a QASystem instance.  The fitted TfidfVectorizer and
document matrix (external sklearn objects) are modelled together as one
abstract scoring function from a query string to one rational similarity per
document; none models the unbuilt state in which both Python fields are
None. -/
structure QAState where
  documents : List String
  user_names : List (Option String)
  index : Option (String → List ℚ)

/-- QASystem.build.  The parameter fit models the external sklearn fitting
(TfidfVectorizer fit_transform on the documents, vectorizer transform of a
question and the linear kernel): given the corpus it yields the scoring
function stored in the index. -/
def build (fit : List String → (String → List ℚ)) (docs : List String) :
    QAState :=
  if docs.isEmpty then ⟨[], [], none⟩
  else ⟨docs, docs.map extract_user_name, some (fit docs)⟩

/-- The name-resolution stage of answer on a stripped question. -/
def resolveQ (documents : List String) (names : List (Option String))
    (question : String) : List Nat × Bool :=
  resolve documents.length names (pyLower question) (tokenize question)

/-- The masked score vector of answer on a stripped question. -/
def scoresQ (documents : List String) (names : List (Option String))
    (score : String → List ℚ) (question : String) : List ℚ :=
  applyMask documents.length (resolveQ documents names question).1
    (score question)

/-- The selected position of answer on a stripped question. -/
def bestIdxQ (documents : List String) (names : List (Option String))
    (score : String → List ℚ) (question : String) : Nat :=
  argmaxIdx (scoresQ documents names score question)

/-- The best similarity value of answer on a stripped question. -/
def bestScoreQ (documents : List String) (names : List (Option String))
    (score : String → List ℚ) (question : String) : ℚ :=
  (scoresQ documents names score question).getD
    (bestIdxQ documents names score question) 0

/-- The document selected by answer on a stripped question. -/
def bestDocQ (documents : List String) (names : List (Option String))
    (score : String → List ℚ) (question : String) : String :=
  documents.getD (bestIdxQ documents names score question) ""

/-- Steps 1-4 of QASystem.answer after the guard checks, on the stripped
question. -/
def answerCore (documents : List String) (names : List (Option String))
    (score : String → List ℚ) (question : String) : String :=
  if bestScoreQ documents names score question ≤ 0 ∨
     bestScoreQ documents names score question <
       minScore (resolveQ documents names question).2 then notAvailableMsg
  else if topic_overlap_ok question (bestDocQ documents names score question)
      (parse_doc_fields (bestDocQ documents names score question)).1 then
    formatAnswer (bestDocQ documents names score question)
      (parse_doc_fields (bestDocQ documents names score question)).1
      (parse_doc_fields (bestDocQ documents names score question)).2.1
      (parse_doc_fields (bestDocQ documents names score question)).2.2
  else notAvailableMsg

/-- QASystem.answer. -/
def answer (st : QAState) (question0 : String) : String :=
  match st.index with
  | none => noDataMsg
  | some score =>
    if st.documents.isEmpty then noDataMsg
    else
      let question := pyStrip question0
      if question = "" then emptyQuestionMsg
      else answerCore st.documents st.user_names score question

/-- QASystem.answer as a state transformer.  The Python method assigns to no
attribute of self, so its faithful stateful embedding returns the state it
was given. -/
def answerS (st : QAState) (question0 : String) : String × QAState :=
  (answer st question0, st)

/-! ### The flattening collaborator (extractors.py) -/

/-- One raw message record, modelled with its optional string fields; rawRepr
models the str() form of the record used by the fallback branches. -/
structure RawMessage where
  user_name : Option String
  member_name : Option String
  name : Option String
  timestamp : Option String
  message : Option String
  id : Option String
  user_id : Option String
  member_id : Option String
  rawRepr : String

/-- Python x or y on optional strings: the left value when truthy, the right
one otherwise. -/
def pyOr (a b : Option String) : Option String := if truthy a then a else b

/-- The name field chosen by build_documents: user_name or member_name or
name, by Python truthiness. -/
def effName (m : RawMessage) : Option String :=
  pyOr (pyOr m.user_name m.member_name) m.name

/-- build_documents on one record: the labeled pipe-delimited document, or
the raw record string when no segment was produced. -/
def build_document (m : RawMessage) : String :=
  let parts : List String :=
    (if truthy (effName m) then ["User: " ++ (effName m).getD ""] else []) ++
    (match m.timestamp with | some t => ["Timestamp: " ++ t] | none => []) ++
    (match m.message with | some s => ["Message: " ++ s] | none => []) ++
    (match m.id with | some i => ["id: " ++ i] | none => []) ++
    (match m.user_id with | some u => ["user_id: " ++ u] | none => []) ++
    (match m.member_id with | some w => ["member_id: " ++ w] | none => [])
  if parts.isEmpty then m.rawRepr else String.intercalate " | " parts

/-- build_documents over a list of records. -/
def build_documents (msgs : List RawMessage) : List String :=
  msgs.map build_document

/-- Modelled from the spec: a Document contains a User: segment when one of
its pipe-delimited, stripped parts starts with the User: label (the spec
describes Documents as pipe-delimited lines of labeled segments that may
appear in any position). -/
def hasUserSegment (doc : String) : Bool :=
  ((splitOnChar '|' doc.toList).map stripL).any
    (fun part => startsWithL "User:".toList part)

/-! ### Theorems for the claims -/

/-- On a built non-empty corpus and a question with content, answer runs the
core pipeline on the stripped question. -/
theorem answer_eq_core (st : QAState) (score : String → List ℚ) (q : String)
    (hidx : st.index = some score) (hdocs : st.documents.isEmpty = false)
    (hq : pyStrip q ≠ "") :
    answer st q = answerCore st.documents st.user_names score (pyStrip q) := by
  unfold answer
  rw [hidx, hdocs]
  simp only [Bool.false_eq_true, if_false]
  show (if pyStrip q = "" then emptyQuestionMsg
    else answerCore st.documents st.user_names score (pyStrip q)) = _
  rw [if_neg hq]

/-- Claim C5: for every corpus built from an empty document list, answer
returns the fixed no-data message for every question string, including the
empty and whitespace-only question; the not-built check precedes the
empty-question check. -/
theorem C5_empty_build_no_data (fit : List String → (String → List ℚ))
    (q : String) : answer (build fit []) q = noDataMsg := rfl

/-- Claim C6: for every question that strips to the empty string, on a
non-empty built corpus, answer returns the fixed empty-question message. -/
theorem C6_empty_question (st : QAState) (score : String → List ℚ)
    (q : String) (hidx : st.index = some score)
    (hdocs : st.documents.isEmpty = false) (hq : pyStrip q = "") :
    answer st q = emptyQuestionMsg := by
  unfold answer
  rw [hidx, hdocs, hq]
  rfl

/-- Witness for C6 at a concrete built state and whitespace question. -/
theorem C6_empty_question_witness :
    answer ⟨["x"], [none], some (fun _ => [1])⟩ "  " = emptyQuestionMsg :=
  C6_empty_question ⟨["x"], [none], some (fun _ => [1])⟩ (fun _ => [1]) "  "
    rfl rfl (by decide)

/-- Claim C10: answer mutates no state: as a state transformer it leaves the
document list, the member-name list and the index untouched, it agrees with
the pure answer function, and a repeated call on the resulting state returns
the same string. -/
theorem C10_answer_pure (st : QAState) (q : String) :
    (answerS st q).2 = st ∧
    (answerS st q).2.documents = st.documents ∧
    (answerS st q).2.user_names = st.user_names ∧
    (answerS st q).2.index = st.index ∧
    (answerS st q).1 = answer st q ∧
    (answerS ((answerS st q).2) q).1 = (answerS st q).1 :=
  ⟨rfl, rfl, rfl, rfl, rfl, rfl⟩

/-- Claim C3: the required minimum score is 0.05 under a confident name
restriction and 0.15 otherwise; a best score that is nonpositive or strictly
below the applicable minimum makes answer return the fixed
information-not-available message; and a confident resolution with best score
exactly 0.05 passes the threshold test. -/
theorem C3_threshold (st : QAState) (score : String → List ℚ) (q : String)
    (hidx : st.index = some score) (hdocs : st.documents.isEmpty = false)
    (hq : pyStrip q ≠ "") :
    minScore true = 0.05 ∧ minScore false = 0.15 ∧
    (bestScoreQ st.documents st.user_names score (pyStrip q) ≤ 0 ∨
       bestScoreQ st.documents st.user_names score (pyStrip q) <
         minScore (resolveQ st.documents st.user_names (pyStrip q)).2 →
       answer st q = notAvailableMsg) ∧
    ((resolveQ st.documents st.user_names (pyStrip q)).2 = true →
       bestScoreQ st.documents st.user_names score (pyStrip q) = 0.05 →
       ¬ (bestScoreQ st.documents st.user_names score (pyStrip q) ≤ 0 ∨
          bestScoreQ st.documents st.user_names score (pyStrip q) <
            minScore (resolveQ st.documents st.user_names (pyStrip q)).2)) := by
  refine ⟨?_, ?_, ?_, ?_⟩
  · rw [minScore, if_pos rfl, Rat.mkRat_eq_div]
    norm_num
  · rw [minScore, if_neg (by simp), Rat.mkRat_eq_div]
    norm_num
  · intro hbelow
    rw [answer_eq_core st score q hidx hdocs hq]
    unfold answerCore
    rw [if_pos hbelow]
  · intro hconf hexact
    rw [hconf, hexact]
    have h5 : minScore true = 0.05 := by
      rw [minScore, if_pos rfl, Rat.mkRat_eq_div]
      norm_num
    rw [h5]
    norm_num

/-- Witness for C3 at a concrete built state whose best score falls below
the confident threshold. -/
theorem C3_threshold_witness :
    answer ⟨["User: Alice | Message: pizza"], [some "Alice"],
        some (fun _ => [mkRat 1 100])⟩ "Alice?" = notAvailableMsg :=
  (C3_threshold ⟨["User: Alice | Message: pizza"], [some "Alice"],
      some (fun _ => [mkRat 1 100])⟩ (fun _ => [mkRat 1 100]) "Alice?"
    rfl rfl (by decide)).2.2.1 (by decide)

/-- Claim C1: in the token-based fallback (no full-name substring match),
when exactly one distinct member name groups all token matches the resolver
returns that group of positions with confident true; with zero or several
distinct names it returns the whole position range with confident false. -/
theorem C1_token_fallback (numDocs : Nat) (names : List (Option String))
    (qLower : String) (qTokens : List String)
    (hfull : fullMatchIndices qLower names = []) :
    (∀ nm, ((tokenMatches names qTokens).map Prod.fst).dedup = [nm] →
       resolve numDocs names qLower qTokens =
         ((tokenMatches names qTokens).map Prod.snd, true) ∧
       ∀ p ∈ tokenMatches names qTokens, p.1 = nm) ∧
    (((tokenMatches names qTokens).map Prod.fst).dedup.length ≠ 1 →
       resolve numDocs names qLower qTokens = (List.range numDocs, false)) := by
  constructor
  · intro nm hone
    constructor
    · unfold resolve
      rw [hfull, hone]
      simp
    · intro p hp
      have hmem : p.1 ∈ ((tokenMatches names qTokens).map Prod.fst).dedup := by
        rw [List.mem_dedup]
        exact List.mem_map_of_mem Prod.fst hp
      rw [hone] at hmem
      simpa using hmem
  · intro hnot
    unfold resolve
    rw [hfull]
    simp [hnot]

/-- Witness for C1: two members share the token Sam, so a question carrying
only that token keeps the whole corpus as candidates, unconfident. -/
theorem C1_token_fallback_witness :
    resolve 2 [some "Sam Jones", some "Sam Smith"] "who is sam"
      (tokenize "who is sam") = (List.range 2, false) :=
  (C1_token_fallback 2 [some "Sam Jones", some "Sam Smith"] "who is sam"
    (tokenize "who is sam") (by decide)).2 (by decide)

/-- Claim C2: when at least one position carries a non-empty member name
whose lowercased form is a substring of the lowercased question, the resolver
returns exactly the set of all such positions with confident true, and the
token fallback is not consulted. -/
theorem C2_full_name_match (numDocs : Nat) (names : List (Option String))
    (qLower : String) (qTokens : List String)
    (hexists : ∃ j nm, j < names.length ∧ names.getD j none = some nm ∧
       nm ≠ "" ∧ isSubstring (pyLower nm) qLower = true) :
    resolve numDocs names qLower qTokens =
      (fullMatchIndices qLower names, true) ∧
    ∀ i, i ∈ fullMatchIndices qLower names ↔
      (i < names.length ∧ ∃ nm, names.getD i none = some nm ∧
        nm ≠ "" ∧ isSubstring (pyLower nm) qLower = true) := by
  have hchar : ∀ i, i ∈ fullMatchIndices qLower names ↔
      (i < names.length ∧ ∃ nm, names.getD i none = some nm ∧
        nm ≠ "" ∧ isSubstring (pyLower nm) qLower = true) := by
    intro i
    unfold fullMatchIndices
    rw [List.mem_filter, List.mem_range]
    constructor
    · rintro ⟨hi, hcond⟩
      refine ⟨hi, ?_⟩
      cases hgd : names.getD i none with
      | none => rw [hgd] at hcond; simp at hcond
      | some nm =>
        rw [hgd] at hcond
        simp only [truthy, Bool.and_eq_true, decide_eq_true_eq] at hcond
        exact ⟨nm, rfl, hcond.1, hcond.2⟩
    · rintro ⟨hi, nm, hgd, hne, hsub⟩
      refine ⟨hi, ?_⟩
      rw [hgd]
      simp only [truthy, Bool.and_eq_true, decide_eq_true_eq]
      exact ⟨hne, hsub⟩
  have hne : ¬ (fullMatchIndices qLower names).isEmpty = true := by
    obtain ⟨j, nm, hj, hgd, hne0, hsub⟩ := hexists
    have : j ∈ fullMatchIndices qLower names :=
      (hchar j).2 ⟨hj, nm, hgd, hne0, hsub⟩
    intro hemp
    rw [List.isEmpty_iff] at hemp
    rw [hemp] at this
    simp at this
  refine ⟨?_, hchar⟩
  unfold resolve
  rw [if_pos hne]

/-- Witness for C2: the question names Alice verbatim, so resolution
restricts to position 0 with confident true. -/
theorem C2_full_name_match_witness :
    resolve 2 [some "Alice", some "Bob"] "where is alice"
      (tokenize "where is alice") =
      (fullMatchIndices "where is alice" [some "Alice", some "Bob"], true) :=
  (C2_full_name_match 2 [some "Alice", some "Bob"] "where is alice"
    (tokenize "where is alice")
    ⟨0, "Alice", by decide, by decide, by decide, by decide⟩).1

/-- Claim C4: with a parsed member name, the topic filter strips the name
word tokens from both stopword-filtered token sets and accepts exactly when
the reduced sets intersect directly or both meet one synonym group; and a
query whose winning document fails the filter is answered with the fixed
information-not-available message. -/
theorem C4_topic_filter :
    (∀ question doc nm, nm ≠ "" →
      (topic_overlap_ok question doc (some nm) = true ↔
        ((∃ t, t ∈ strippedTokens (wordTokens (pyLower nm)) question ∧
            t ∈ strippedTokens (wordTokens (pyLower nm)) doc) ∨
         (∃ g, g ∈ topic_groups ∧
           (∃ t, t ∈ strippedTokens (wordTokens (pyLower nm)) question ∧
              t ∈ g) ∧
           (∃ t, t ∈ strippedTokens (wordTokens (pyLower nm)) doc ∧
              t ∈ g))))) ∧
    (∀ st score q, st.index = some score → st.documents.isEmpty = false →
      pyStrip q ≠ "" →
      topic_overlap_ok (pyStrip q)
          (bestDocQ st.documents st.user_names score (pyStrip q))
          (parse_doc_fields
            (bestDocQ st.documents st.user_names score (pyStrip q))).1 = false →
      answer st q = notAvailableMsg) := by
  constructor
  · intro question doc nm hnm
    have hnp : namePartsOf (some nm) = wordTokens (pyLower nm) := by
      unfold namePartsOf
      rw [if_pos (by simpa [truthy] using hnm)]
      rfl
    unfold topic_overlap_ok
    rw [hnp]
    constructor
    · intro h
      by_cases hdir : (strippedTokens (wordTokens (pyLower nm)) question).any
          (fun t =>
            (strippedTokens (wordTokens (pyLower nm)) doc).contains t) = true
      · left
        obtain ⟨t, ht, htc⟩ := List.any_eq_true.1 hdir
        exact ⟨t, ht, List.mem_of_elem_eq_true htc⟩
      · rw [if_neg hdir] at h
        right
        obtain ⟨g, hg, hgq⟩ := List.any_eq_true.1 h
        rw [Bool.and_eq_true] at hgq
        obtain ⟨t1, ht1, ht1g⟩ := List.any_eq_true.1 hgq.1
        obtain ⟨t2, ht2, ht2g⟩ := List.any_eq_true.1 hgq.2
        exact ⟨g, hg, ⟨t1, ht1, List.mem_of_elem_eq_true ht1g⟩,
          ⟨t2, ht2, List.mem_of_elem_eq_true ht2g⟩⟩
    · intro h
      rcases h with ⟨t, htq, htd⟩ | ⟨g, hg, ⟨t1, ht1, ht1g⟩, ⟨t2, ht2, ht2g⟩⟩
      · rw [if_pos]
        exact List.any_eq_true.2 ⟨t, htq, List.elem_eq_true_of_mem htd⟩
      · by_cases hdir : (strippedTokens (wordTokens (pyLower nm)) question).any
          (fun t =>
            (strippedTokens (wordTokens (pyLower nm)) doc).contains t) = true
        · rw [if_pos hdir]
        · rw [if_neg hdir]
          refine List.any_eq_true.2 ⟨g, hg, ?_⟩
          rw [Bool.and_eq_true]
          exact ⟨List.any_eq_true.2 ⟨t1, ht1, List.elem_eq_true_of_mem ht1g⟩,
            List.any_eq_true.2 ⟨t2, ht2, List.elem_eq_true_of_mem ht2g⟩⟩
  · intro st score q hidx hdocs hq htopic
    rw [answer_eq_core st score q hidx hdocs hq]
    unfold answerCore
    by_cases hbelow : bestScoreQ st.documents st.user_names score (pyStrip q) ≤ 0 ∨
        bestScoreQ st.documents st.user_names score (pyStrip q) <
          minScore (resolveQ st.documents st.user_names (pyStrip q)).2
    · rw [if_pos hbelow]
    · rw [if_neg hbelow, if_neg]
      rw [htopic]
      simp

/-- Witness for C4: the question shares only the member name with the
winning document, so the pipeline refuses. -/
theorem C4_topic_filter_witness :
    answer ⟨["User: Alice | Message: pizza"], [some "Alice"],
        some (fun _ => [(1 : ℚ)])⟩ "Alice?" = notAvailableMsg :=
  C4_topic_filter.2 ⟨["User: Alice | Message: pizza"], [some "Alice"],
      some (fun _ => [(1 : ℚ)])⟩ (fun _ => [(1 : ℚ)]) "Alice?"
    rfl rfl (by decide) (by decide)

/-- The second components of the token matches are exactly the positions of
the index range that satisfy the token condition, in order. -/
theorem tokenMatches_snd_eq_filter (names : List (Option String))
    (qTokens : List String) :
    (tokenMatches names qTokens).map Prod.snd =
      (List.range names.length).filter (fun i =>
        match names.getD i none with
        | some nm => tokenMatchCond qTokens nm
        | none => false) := by
  unfold tokenMatches
  generalize List.range names.length = l
  induction l with
  | nil => rfl
  | cons a l ih =>
    rw [List.filterMap_cons, List.filter_cons]
    cases ha : names.getD a none with
    | none => simpa [ha] using ih
    | some nm =>
      by_cases hc : tokenMatchCond qTokens nm = true
      · simpa [ha, hc] using ih
      · rw [Bool.not_eq_true] at hc
        simpa [ha, hc] using ih

/-- The resolver takes one of three branches: full-name matches, token
matches of a single distinct member, or the whole range. -/
theorem resolve_fst_cases (numDocs : Nat) (names : List (Option String))
    (qLower : String) (qTokens : List String) :
    ((resolve numDocs names qLower qTokens).1 = fullMatchIndices qLower names
       ∧ ¬ (fullMatchIndices qLower names).isEmpty = true) ∨
    ((resolve numDocs names qLower qTokens).1 =
        (tokenMatches names qTokens).map Prod.snd
       ∧ (((tokenMatches names qTokens).map Prod.fst).dedup).length = 1) ∨
    (resolve numDocs names qLower qTokens).1 = List.range numDocs := by
  unfold resolve
  by_cases h1 : ¬ (fullMatchIndices qLower names).isEmpty = true
  · rw [if_pos h1]
    exact Or.inl ⟨rfl, h1⟩
  · rw [if_neg h1]
    by_cases h2 : (((tokenMatches names qTokens).map Prod.fst).dedup).length = 1
    · rw [if_pos h2]
      exact Or.inr (Or.inl ⟨rfl, h2⟩)
    · rw [if_neg h2]
      exact Or.inr (Or.inr rfl)

/-- Candidate positions produced by the resolver carry no duplicates. -/
theorem resolve_fst_nodup (numDocs : Nat) (names : List (Option String))
    (qLower : String) (qTokens : List String) :
    ((resolve numDocs names qLower qTokens).1).Nodup := by
  rcases resolve_fst_cases numDocs names qLower qTokens with
    ⟨heq, _⟩ | ⟨heq, _⟩ | heq <;> rw [heq]
  · unfold fullMatchIndices
    exact (List.nodup_range _).filter _
  · rw [tokenMatches_snd_eq_filter]
    exact (List.nodup_range _).filter _
  · exact List.nodup_range _

/-- Candidate positions produced by the resolver stay inside the corpus
range, given aligned name and document sequences. -/
theorem resolve_fst_mem_lt (numDocs : Nat) (names : List (Option String))
    (qLower : String) (qTokens : List String)
    (hlen : names.length = numDocs) :
    ∀ i ∈ (resolve numDocs names qLower qTokens).1, i < numDocs := by
  intro i hi
  rcases resolve_fst_cases numDocs names qLower qTokens with
    ⟨heq, _⟩ | ⟨heq, _⟩ | heq <;> rw [heq] at hi
  · unfold fullMatchIndices at hi
    have hr := (List.mem_filter.1 hi).1
    rw [List.mem_range] at hr
    omega
  · rw [tokenMatches_snd_eq_filter] at hi
    have hr := (List.mem_filter.1 hi).1
    rw [List.mem_range] at hr
    omega
  · exact List.mem_range.1 hi

/-- The resolver never returns an empty candidate list on a non-empty
corpus. -/
theorem resolve_fst_ne_nil (numDocs : Nat) (names : List (Option String))
    (qLower : String) (qTokens : List String) (h0 : 0 < numDocs) :
    (resolve numDocs names qLower qTokens).1 ≠ [] := by
  rcases resolve_fst_cases numDocs names qLower qTokens with
    ⟨heq, hne⟩ | ⟨heq, hone⟩ | heq <;> rw [heq]
  · rw [Bool.not_eq_true, List.isEmpty_eq_false] at hne
    exact hne
  · intro he
    rw [List.map_eq_nil_iff] at he
    rw [he] at hone
    simp at hone
  · intro he
    rw [List.range_eq_nil] at he
    omega

/-- A duplicate-free list of naturals below n that is at least n long
contains every natural below n. -/
theorem mem_of_nodup_bounded_long (l : List Nat) (n : Nat) (hnd : l.Nodup)
    (hb : ∀ i ∈ l, i < n) (hlen : n ≤ l.length) : ∀ i, i < n → i ∈ l := by
  intro i hi
  have hsub : l.toFinset ⊆ Finset.range n := by
    intro x hx
    rw [List.mem_toFinset] at hx
    rw [Finset.mem_range]
    exact hb x hx
  have hcard : (Finset.range n).card ≤ l.toFinset.card := by
    rw [Finset.card_range, List.toFinset_card_of_nodup hnd]
    exact hlen
  have heq := Finset.eq_of_subset_of_card_le hsub hcard
  have hmem : i ∈ l.toFinset := by
    rw [heq, Finset.mem_range]
    exact hi
  rwa [List.mem_toFinset] at hmem

/-- numpy argmax selects an index inside the list. -/
theorem argmaxIdx_lt_length (l : List ℚ) (hl : l ≠ []) :
    argmaxIdx l < l.length := by
  unfold argmaxIdx
  have h0 : 0 < l.length := List.length_pos.2 hl
  have key : ∀ (xs : List Nat) (acc : Nat), acc < l.length →
      (∀ x ∈ xs, x < l.length) →
      xs.foldl (fun best i => if l.getD best 0 < l.getD i 0 then i else best)
        acc < l.length := by
    intro xs
    induction xs with
    | nil =>
      intro acc hacc _
      simpa using hacc
    | cons a xs ih =>
      intro acc hacc hxs
      rw [List.foldl_cons]
      apply ih
      · by_cases hc : l.getD acc 0 < l.getD a 0
        · rw [if_pos hc]
          exact hxs a (List.mem_cons_self a xs)
        · rw [if_neg hc]
          exact hacc
      · intro x hx
        exact hxs x (List.mem_cons_of_mem a hx)
  exact key (List.range l.length) 0 h0 (fun x hx => List.mem_range.1 hx)

/-- Masking keeps the score vector length. -/
theorem applyMask_length (numDocs : Nat) (cands : List Nat)
    (scores : List ℚ) :
    (applyMask numDocs cands scores).length = scores.length := by
  unfold applyMask
  split_ifs
  · simp
  · rfl

/-- After masking, a position outside the candidate list scores zero. -/
theorem applyMask_getD_not_mem (numDocs : Nat) (cands : List Nat)
    (scores : List ℚ) (i : Nat) (hi : i < scores.length)
    (hmask : ¬ cands.isEmpty = true ∧ cands.length < numDocs)
    (hnm : ¬ i ∈ cands) :
    (applyMask numDocs cands scores).getD i 0 = 0 := by
  unfold applyMask
  rw [if_pos hmask, List.getD_eq_getElem?_getD, List.getElem?_mapIdx,
    List.getElem?_eq_getElem hi]
  have hc : cands.contains i = false := by
    rw [← Bool.not_eq_true]
    intro hct
    exact hnm (List.mem_of_elem_eq_true hct)
  rw [hc]
  simp

/-- Claim C9: on a built non-empty corpus, every masked score at a position
outside the candidate set is zero, and whenever answer returns something
other than the fixed refusal messages, the selected position lies in the
candidate set produced by name resolution. -/
theorem C9_candidate_invariant (fit : List String → (String → List ℚ))
    (docs : List String) (q : String) (hdocs : docs ≠ [])
    (hq : pyStrip q ≠ "")
    (hfit : (fit docs (pyStrip q)).length = docs.length) :
    (∀ i, i < docs.length →
       ¬ i ∈ (resolveQ docs (docs.map extract_user_name) (pyStrip q)).1 →
       (scoresQ docs (docs.map extract_user_name) (fit docs)
         (pyStrip q)).getD i 0 = 0) ∧
    (answer (build fit docs) q ≠ noDataMsg →
     answer (build fit docs) q ≠ emptyQuestionMsg →
     answer (build fit docs) q ≠ notAvailableMsg →
     bestIdxQ docs (docs.map extract_user_name) (fit docs) (pyStrip q) ∈
       (resolveQ docs (docs.map extract_user_name) (pyStrip q)).1) := by
  have hlen0 : 0 < docs.length := List.length_pos.2 hdocs
  set names := docs.map extract_user_name with hnames
  set qs := pyStrip q with hqs
  have hnln : names.length = docs.length := List.length_map _ _
  have hrq : resolveQ docs names qs =
      resolve docs.length names (pyLower qs) (tokenize qs) := rfl
  have hz : ∀ i, i < docs.length → ¬ i ∈ (resolveQ docs names qs).1 →
      (scoresQ docs names (fit docs) qs).getD i 0 = 0 := by
    intro i hi hnm
    unfold scoresQ
    by_cases hmask : ¬ ((resolveQ docs names qs).1).isEmpty = true ∧
        ((resolveQ docs names qs).1).length < docs.length
    · exact applyMask_getD_not_mem _ _ _ _ (by rw [hfit]; exact hi) hmask hnm
    · exfalso
      push_neg at hmask
      by_cases hemp : ((resolveQ docs names qs).1).isEmpty = true
      · rw [List.isEmpty_iff] at hemp
        rw [hrq] at hemp
        exact resolve_fst_ne_nil docs.length names (pyLower qs) (tokenize qs)
          hlen0 hemp
      · have hge : docs.length ≤ ((resolveQ docs names qs).1).length :=
          hmask hemp
        apply hnm
        rw [hrq] at hge ⊢
        exact mem_of_nodup_bounded_long _ docs.length
          (resolve_fst_nodup docs.length names (pyLower qs) (tokenize qs))
          (resolve_fst_mem_lt docs.length names (pyLower qs) (tokenize qs) hnln)
          hge i hi
  refine ⟨hz, ?_⟩
  intro h1 h2 h3
  have hne : ¬ docs.isEmpty = true := by
    rw [Bool.not_eq_true, List.isEmpty_eq_false]
    exact hdocs
  have hbuild : build fit docs = ⟨docs, names, some (fit docs)⟩ := by
    unfold build
    rw [if_neg hne]
  have hanswer : answer (build fit docs) q =
      answerCore docs names (fit docs) qs := by
    rw [hbuild]
    exact answer_eq_core ⟨docs, names, some (fit docs)⟩ (fit docs) q rfl
      (by rw [Bool.not_eq_true] at hne; simp [List.isEmpty_eq_false, hdocs])
      hq
  rw [hanswer] at h3
  by_cases hbelow : bestScoreQ docs names (fit docs) qs ≤ 0 ∨
      bestScoreQ docs names (fit docs) qs <
        minScore (resolveQ docs names qs).2
  · exfalso
    apply h3
    unfold answerCore
    rw [if_pos hbelow]
  · push_neg at hbelow
    obtain ⟨hpos, _⟩ := hbelow
    by_contra hnm
    have hlens : (scoresQ docs names (fit docs) qs).length = docs.length := by
      unfold scoresQ
      rw [applyMask_length, hfit]
    have hne2 : scoresQ docs names (fit docs) qs ≠ [] := by
      intro he
      rw [he] at hlens
      simp at hlens
      omega
    have hblt : bestIdxQ docs names (fit docs) qs < docs.length := by
      have harg := argmaxIdx_lt_length _ hne2
      rw [hlens] at harg
      exact harg
    have hzero := hz _ hblt hnm
    unfold bestScoreQ at hpos
    rw [hzero] at hpos
    exact lt_irrefl _ hpos

/-- Witness for C9 at a concrete one-document corpus whose answer is a
formatted member message. -/
theorem C9_candidate_invariant_witness :
    bestIdxQ ["User: Alice | Message: dinner at the bistro"]
        (["User: Alice | Message: dinner at the bistro"].map extract_user_name)
        ((fun _ => fun _ => [(1 : ℚ)])
          ["User: Alice | Message: dinner at the bistro"])
        (pyStrip "Where did Alice have dinner?") ∈
      (resolveQ ["User: Alice | Message: dinner at the bistro"]
        (["User: Alice | Message: dinner at the bistro"].map extract_user_name)
        (pyStrip "Where did Alice have dinner?")).1 :=
  (C9_candidate_invariant (fun _ => fun _ => [(1 : ℚ)])
    ["User: Alice | Message: dinner at the bistro"]
    "Where did Alice have dinner?"
    (by decide) (by decide) (by decide)).2 (by decide) (by decide) (by decide)

/-! ### String and character-list helper lemmas for the round-trip claims -/

/-- Two strings with the same character list are equal. -/
theorem string_ext {a b : String} (h : a.toList = b.toList) : a = b :=
  congrArg String.mk h

/-- Character list of a string concatenation. -/
theorem toList_append (a b : String) :
    (a ++ b).toList = a.toList ++ b.toList := by
  cases a
  cases b
  rfl

/-- Rebuilding a string from its character list. -/
theorem mk_toList (s : String) : String.mk s.toList = s := by
  cases s
  rfl

/-- A string is empty exactly when its character list is. -/
theorem toList_eq_nil_iff (s : String) : s.toList = [] ↔ s = "" := by
  constructor
  · intro h
    exact string_ext h
  · intro h
    rw [h]
    rfl

/-- dropWhile leaves a list starting with a failing character unchanged. -/
theorem dropWhile_cons_neg (p : Char → Bool) (c : Char) (l : List Char)
    (h : p c = false) : (c :: l).dropWhile p = c :: l := by
  rw [List.dropWhile_cons, h]
  simp

/-- dropWhile fixes a list exactly when its head fails the predicate. -/
theorem dropWhile_eq_self_iff_head (p : Char → Bool) (l : List Char) :
    l.dropWhile p = l ↔ ∀ c, l.head? = some c → p c = false := by
  cases l with
  | nil => simp
  | cons a l2 =>
    constructor
    · intro h c hc
      rw [List.head?_cons, Option.some_inj] at hc
      rw [← hc]
      by_cases hp : p a = true
      · exfalso
        rw [List.dropWhile_cons, if_pos hp] at h
        have hlen := congrArg List.length h
        rw [List.length_cons] at hlen
        have hle : (l2.dropWhile p).length ≤ l2.length :=
          (List.dropWhile_sublist (l := l2) p).length_le
        omega
      · rw [Bool.not_eq_true] at hp
        exact hp
    · intro h
      exact dropWhile_cons_neg p a l2 (h a rfl)

/-- dropWhile fixes any extension of a fixed non-empty list. -/
theorem dropWhile_fixed_append (p : Char → Bool) (a b : List Char)
    (ha : a.dropWhile p = a) (ha0 : a ≠ []) :
    (a ++ b).dropWhile p = a ++ b := by
  cases a with
  | nil => exact absurd rfl ha0
  | cons c a2 =>
    rw [List.cons_append]
    exact dropWhile_cons_neg p c (a2 ++ b)
      ((dropWhile_eq_self_iff_head p (c :: a2)).1 ha c rfl)

/-- A strip-fixed list is fixed by both one-sided strips. -/
theorem strip_fixed_parts (l : List Char) (h : stripL l = l) :
    l.dropWhile isSpace = l ∧ l.reverse.dropWhile isSpace = l.reverse := by
  have h1 : l.dropWhile isSpace = l := by
    rw [dropWhile_eq_self_iff_head]
    intro c hc
    cases l with
    | nil => simp at hc
    | cons a l2 =>
      rw [List.head?_cons, Option.some_inj] at hc
      rw [← hc]
      by_cases hp : isSpace a = true
      · exfalso
        unfold stripL at h
        rw [List.dropWhile_cons, if_pos hp] at h
        have hlen := congrArg List.length h
        rw [List.length_reverse, List.length_cons] at hlen
        have hle1 : (l2.dropWhile isSpace).length ≤ l2.length :=
          (List.dropWhile_sublist (l := l2) isSpace).length_le
        have hle2 : ((l2.dropWhile isSpace).reverse.dropWhile isSpace).length ≤
            (l2.dropWhile isSpace).reverse.length :=
          (List.dropWhile_sublist isSpace).length_le
        rw [List.length_reverse] at hle2
        omega
      · rw [Bool.not_eq_true] at hp
        exact hp
  refine ⟨h1, ?_⟩
  unfold stripL at h
  rw [h1] at h
  have h2 := congrArg List.reverse h
  rw [List.reverse_reverse] at h2
  exact h2

/-- A leading space is dropped by strip. -/
theorem stripL_cons_space (l : List Char) : stripL (' ' :: l) = stripL l := by
  unfold stripL
  rw [List.dropWhile_cons, if_pos (show isSpace ' ' = true from rfl)]

/-- The head remaining after dropWhile fails the predicate. -/
theorem dropWhile_head_false (p : Char → Bool) (l : List Char) (c : Char)
    (hc : (l.dropWhile p).head? = some c) : p c = false := by
  induction l with
  | nil => simp at hc
  | cons a l2 ih =>
    rw [List.dropWhile_cons] at hc
    by_cases hp : p a = true
    · rw [if_pos hp] at hc
      exact ih hc
    · rw [if_neg hp] at hc
      rw [List.head?_cons, Option.some_inj] at hc
      rw [← hc]
      rwa [Bool.not_eq_true] at hp

/-- dropWhile is idempotent. -/
theorem dropWhile_idem (p : Char → Bool) (l : List Char) :
    (l.dropWhile p).dropWhile p = l.dropWhile p := by
  rw [dropWhile_eq_self_iff_head]
  intro c hc
  exact dropWhile_head_false p l c hc

/-- Stripping after a left strip strips the original list. -/
theorem stripL_lstripL (l : List Char) : stripL (lstripL l) = stripL l := by
  unfold stripL lstripL
  rw [dropWhile_idem]

/-- Strip fixes a concatenation whose head block and tail block are both
fixed and non-empty. -/
theorem stripL_core (a b : List Char)
    (ha : a.dropWhile isSpace = a) (ha0 : a ≠ [])
    (hb : b.reverse.dropWhile isSpace = b.reverse) (hb0 : b ≠ []) :
    stripL (a ++ b) = a ++ b := by
  unfold stripL
  rw [dropWhile_fixed_append isSpace a b ha ha0, List.reverse_append]
  rw [dropWhile_fixed_append isSpace b.reverse a.reverse hb
    (by simpa using hb0)]
  rw [← List.reverse_append, List.reverse_reverse]

/-- Strip of a concatenation followed by one trailing space. -/
theorem stripL_core_trailing (a b : List Char)
    (ha : a.dropWhile isSpace = a) (ha0 : a ≠ [])
    (hb : b.reverse.dropWhile isSpace = b.reverse) (hb0 : b ≠ []) :
    stripL (a ++ b ++ [' ']) = a ++ b := by
  have hrev : (a ++ b ++ [' ']).reverse = ' ' :: (b.reverse ++ a.reverse) := by
    rw [List.reverse_append, List.reverse_append]
    rfl
  unfold stripL
  rw [List.append_assoc, dropWhile_fixed_append isSpace a (b ++ [' ']) ha ha0,
    ← List.append_assoc, hrev, List.dropWhile_cons,
    if_pos (show isSpace ' ' = true from rfl),
    dropWhile_fixed_append isSpace b.reverse a.reverse hb (by simpa using hb0),
    ← List.reverse_append, List.reverse_reverse]

/-- A cons starting with a different character never starts with the
pattern. -/
theorem startsWithL_cons_false (p c : Char) (ps l : List Char)
    (h : (p == c) = false) : startsWithL (p :: ps) (c :: l) = false := by
  unfold startsWithL
  rw [h]
  simp

/-- A list starts with any of its prefixes. -/
theorem startsWithL_append (pat l : List Char) :
    startsWithL pat (pat ++ l) = true := by
  induction pat with
  | nil => rfl
  | cons p ps ih =>
    rw [List.cons_append]
    unfold startsWithL
    rw [beq_self_eq_true]
    simpa using ih

/-- Splitting a list free of the separator yields the single piece. -/
theorem splitOnChar_no_sep (sep : Char) (l : List Char) (h : ¬ sep ∈ l) :
    splitOnChar sep l = [l] := by
  induction l with
  | nil => rfl
  | cons c cs ih =>
    have hc : (c == sep) = false := by
      rw [beq_eq_false_iff_ne]
      intro he
      exact h (he ▸ List.mem_cons_self c cs)
    unfold splitOnChar
    rw [hc]
    simp only [Bool.false_eq_true, if_false]
    rw [ih (fun hm => h (List.mem_cons_of_mem c hm))]

/-- Splitting at the first separator after a separator-free block. -/
theorem splitOnChar_sep_append (sep : Char) (a r : List Char)
    (h : ¬ sep ∈ a) :
    splitOnChar sep (a ++ sep :: r) = a :: splitOnChar sep r := by
  induction a with
  | nil =>
    rw [List.nil_append, splitOnChar, beq_self_eq_true]
    simp
  | cons c cs ih =>
    have hc : (c == sep) = false := by
      rw [beq_eq_false_iff_ne]
      intro he
      exact h (he ▸ List.mem_cons_self c cs)
    rw [List.cons_append, splitOnChar, hc]
    simp only [Bool.false_eq_true, if_false]
    rw [ih (fun hm => h (List.mem_cons_of_mem c hm))]

/-- find misses a pattern that the list does not contain. -/
theorem findSubIdx_eq_none (pat l : List Char)
    (h : containsL pat l = false) : findSubIdx pat l = none := by
  induction l with
  | nil =>
    unfold containsL at h
    unfold findSubIdx
    rw [h]
    simp
  | cons c cs ih =>
    unfold containsL at h
    rw [Bool.or_eq_false_iff] at h
    unfold findSubIdx
    rw [h.1]
    simp only [Bool.false_eq_true, if_false]
    rw [ih h.2]
    rfl

/-- find locates the space-pipe separator right after a block that does not
contain it. -/
theorem findSubIdx_boundary (v X : List Char)
    (hv : containsL [' ', '|'] v = false) :
    findSubIdx [' ', '|'] (v ++ ' ' :: '|' :: X) = some v.length := by
  induction v with
  | nil =>
    rw [List.nil_append]
    simp [findSubIdx, startsWithL]
  | cons c cs ih =>
    unfold containsL at hv
    rw [Bool.or_eq_false_iff] at hv
    have hsw : startsWithL [' ', '|'] (c :: (cs ++ ' ' :: '|' :: X)) = false := by
      by_cases hcsp : (' ' == c) = true
      · cases cs with
        | nil =>
          simp [startsWithL, hcsp, show ('|' == ' ') = false from rfl]
        | cons d ds =>
          by_cases hd : ('|' == d) = true
          · exfalso
            have hsw2 : startsWithL [' ', '|'] (c :: d :: ds) = true := by
              simp [startsWithL, hcsp, hd]
            have hcontra := hv.1
            rw [hsw2] at hcontra
            exact Bool.noConfusion hcontra
          · rw [Bool.not_eq_true] at hd
            simp [startsWithL, hcsp, hd]
      · rw [Bool.not_eq_true] at hcsp
        simp [startsWithL, hcsp]
    rw [List.cons_append, findSubIdx, hsw]
    simp only [Bool.false_eq_true, if_false]
    rw [ih hv.2]
    rfl

/-- Claim C8 counterexample: a document whose User: segment is not the first
segment parses to no member name at build time, although a User: segment is
present in the document. -/
theorem C8_counterexample :
    extract_user_name "Timestamp: 1 | User: Alice" = none ∧
    hasUserSegment "Timestamp: 1 | User: Alice" = true := by decide

/-- Claim C8 amended: the build-time member name is taken only from a
document that starts with the User: label (a User: segment appearing later
is ignored, and the result is then none).  On any document of the form
User: followed by s, the text after the label is left-stripped, cut at the
first space-pipe occurrence when one exists (or kept whole otherwise) and
stripped; the result is the name when that text is non-empty and none when
it is empty. -/
theorem C8_extract_amended :
    (∀ doc : String, startsWithL "User:".toList doc.toList = false →
       extract_user_name doc = none) ∧
    (∀ s : String, containsL [' ', '|'] (lstripL s.toList) = false →
       extract_user_name ("User:" ++ s) =
         (if stripL s.toList = [] then none
          else some (String.mk (stripL s.toList)))) ∧
    (∀ (s : String) (v X : List Char),
       lstripL s.toList = v ++ ' ' :: '|' :: X →
       containsL [' ', '|'] v = false →
       extract_user_name ("User:" ++ s) =
         (if stripL v = [] then none else some (String.mk (stripL v)))) := by
  have h1 : ∀ s : String,
      startsWithL "User:".toList ("User:" ++ s).toList = true := by
    intro s
    rw [toList_append, show "User:".toList = ['U', 's', 'e', 'r', ':'] from rfl]
    exact startsWithL_append _ _
  have hd5 : ∀ s : String, ("User:" ++ s).toList.drop 5 = s.toList := by
    intro s
    rw [toList_append, show "User:".toList = ['U', 's', 'e', 'r', ':'] from rfl]
    rfl
  have hfin : ∀ (s : String) (w : List Char),
      extractNameRegion ("User:" ++ s) = w →
      extract_user_name ("User:" ++ s) =
        (if w = [] then none else some (String.mk w)) := by
    intro s w hreg
    unfold extract_user_name
    rw [h1 s, if_pos (Eq.refl true), hreg]
    by_cases he : w = []
    · have hemp : w.isEmpty = true := by
        rw [he]
        rfl
      rw [hemp, if_pos (Eq.refl true), if_pos he]
    · have hemp : w.isEmpty = false := List.isEmpty_eq_false.2 he
      rw [hemp]
      simp only [Bool.false_eq_true, if_false]
      rw [if_neg he]
  refine ⟨?_, ?_, ?_⟩
  · intro doc h
    unfold extract_user_name
    rw [h]
    simp
  · intro s hns
    apply hfin
    unfold extractNameRegion
    rw [hd5 s, show " |".toList = [' ', '|'] from rfl,
      findSubIdx_eq_none [' ', '|'] (lstripL s.toList) hns]
    show stripL (lstripL s.toList) = _
    exact stripL_lstripL s.toList
  · intro s v X hdec hv
    apply hfin
    unfold extractNameRegion
    rw [hd5 s, show " |".toList = [' ', '|'] from rfl, hdec,
      findSubIdx_boundary v X hv]
    show stripL ((v ++ ' ' :: '|' :: X).take v.length) = _
    rw [List.take_left]

/-- Witness for C8 amended: a concrete document whose name sits between the
label and the first space-pipe. -/
theorem C8_extract_amended_witness :
    extract_user_name ("User:" ++ " Alice | Timestamp: 1") = some "Alice" :=
  (C8_extract_amended.2.2 " Alice | Timestamp: 1"
    ['A', 'l', 'i', 'c', 'e'] " Timestamp: 1".toList
    (by decide) (by decide)).trans (by decide)

/-- String.intercalate on a four-element list. -/
theorem intercalate4 (a b c d : String) :
    String.intercalate " | " [a, b, c, d] =
      a ++ " | " ++ b ++ " | " ++ c ++ " | " ++ d := rfl

/-- A character outside three blocks is outside their concatenation. -/
theorem not_mem_append3 {c : Char} {a b d : List Char} (ha : ¬ c ∈ a)
    (hb : ¬ c ∈ b) (hd : ¬ c ∈ d) : ¬ c ∈ (a ++ b ++ d) := by
  intro h
  rcases List.mem_append.1 h with h2 | h2
  · rcases List.mem_append.1 h2 with h3 | h3
    · exact ha h3
    · exact hb h3
  · exact hd h2

/-- build_documents on a record whose effective name is a non-empty n and
which carries timestamp, message and id fields but no user id or member id
fields emits the four labeled segments joined by the pipe separator. -/
theorem build_document_four (m : RawMessage) (n t ms i : String)
    (heff : effName m = some n) (hn0 : n ≠ "")
    (htf : m.timestamp = some t) (hmf : m.message = some ms)
    (hidf : m.id = some i) (huf : m.user_id = none)
    (hmif : m.member_id = none) :
    build_document m =
      String.intercalate " | "
        ["User: " ++ n, "Timestamp: " ++ t, "Message: " ++ ms,
         "id: " ++ i] := by
  unfold build_document
  rw [heff, htf, hmf, hidf, huf, hmif]
  simp [truthy, hn0]

/-- Claim C7 counterexample: a record whose message value contains the pipe
separator flattens to a document whose parsed message is only the text up to
the first pipe, so the round trip loses the original value. -/
theorem C7_counterexample :
    build_document ⟨some "Alice", none, none, some "T1", some "a | b",
        some "7", none, none, "raw"⟩ =
      "User: Alice | Timestamp: T1 | Message: a | b | id: 7" ∧
    parse_doc_fields "User: Alice | Timestamp: T1 | Message: a | b | id: 7" =
      (some "Alice", some "T1", some "a") ∧
    ¬ (some "a" = some ("a | b" : String)) := by decide

/-- Claim C7 amended: the round trip holds for every record whose effective
name field chain produces a name and which carries timestamp, message and id
fields but no user id or member id fields, whenever the four values are
non-empty, free of the pipe character, and carry no surrounding
whitespace. -/
theorem C7_roundtrip_amended (m : RawMessage) (n t ms i : String)
    (heff : effName m = some n)
    (htf : m.timestamp = some t) (hmf : m.message = some ms)
    (hidf : m.id = some i) (huf : m.user_id = none) (hmif : m.member_id = none)
    (hn : pyStrip n = n) (hn0 : n ≠ "") (hnp : ¬ '|' ∈ n.toList)
    (ht : pyStrip t = t) (ht0 : t ≠ "") (htp : ¬ '|' ∈ t.toList)
    (hm : pyStrip ms = ms) (hm0 : ms ≠ "") (hmp : ¬ '|' ∈ ms.toList)
    (hi : pyStrip i = i) (hi0 : i ≠ "") (hip : ¬ '|' ∈ i.toList) :
    build_document m =
      "User: " ++ n ++ " | Timestamp: " ++ t ++ " | Message: " ++ ms ++
        " | id: " ++ i ∧
    parse_doc_fields (build_document m) = (some n, some t, some ms) := by
  have hstn : stripL n.toList = n.toList := congrArg String.toList hn
  have hstt : stripL t.toList = t.toList := congrArg String.toList ht
  have hstm : stripL ms.toList = ms.toList := congrArg String.toList hm
  have hsti : stripL i.toList = i.toList := congrArg String.toList hi
  have hnl0 : n.toList ≠ [] := fun he => hn0 ((toList_eq_nil_iff n).1 he)
  have htl0 : t.toList ≠ [] := fun he => ht0 ((toList_eq_nil_iff t).1 he)
  have hml0 : ms.toList ≠ [] := fun he => hm0 ((toList_eq_nil_iff ms).1 he)
  have hil0 : i.toList ≠ [] := fun he => hi0 ((toList_eq_nil_iff i).1 he)
  obtain ⟨hfn1, hfn2⟩ := strip_fixed_parts n.toList hstn
  obtain ⟨hft1, hft2⟩ := strip_fixed_parts t.toList hstt
  obtain ⟨hfm1, hfm2⟩ := strip_fixed_parts ms.toList hstm
  obtain ⟨hfi1, hfi2⟩ := strip_fixed_parts i.toList hsti
  have hstr : build_document m =
      "User: " ++ n ++ " | Timestamp: " ++ t ++ " | Message: " ++ ms ++
        " | id: " ++ i := by
    rw [build_document_four m n t ms i heff hn0 htf hmf hidf huf hmif,
      intercalate4]
    apply string_ext
    simp only [toList_append,
      show "User: ".toList = ['U', 's', 'e', 'r', ':', ' '] from rfl,
      show " | ".toList = [' ', '|', ' '] from rfl,
      show "Timestamp: ".toList =
        ['T', 'i', 'm', 'e', 's', 't', 'a', 'm', 'p', ':', ' '] from rfl,
      show "Message: ".toList =
        ['M', 'e', 's', 's', 'a', 'g', 'e', ':', ' '] from rfl,
      show "id: ".toList = ['i', 'd', ':', ' '] from rfl,
      show " | Timestamp: ".toList =
        [' ', '|', ' ', 'T', 'i', 'm', 'e', 's', 't', 'a', 'm', 'p', ':', ' ']
        from rfl,
      show " | Message: ".toList =
        [' ', '|', ' ', 'M', 'e', 's', 's', 'a', 'g', 'e', ':', ' '] from rfl,
      show " | id: ".toList = [' ', '|', ' ', 'i', 'd', ':', ' '] from rfl,
      List.cons_append, List.nil_append, List.append_assoc]
  have hdoc : (build_document m).toList =
      (['U', 's', 'e', 'r', ':', ' '] ++ n.toList ++ [' ']) ++ '|' ::
        ((' ' :: (['T', 'i', 'm', 'e', 's', 't', 'a', 'm', 'p', ':', ' '] ++
            t.toList ++ [' '])) ++ '|' ::
          ((' ' :: (['M', 'e', 's', 's', 'a', 'g', 'e', ':', ' '] ++
              ms.toList ++ [' '])) ++ '|' ::
            (' ' :: (['i', 'd', ':', ' '] ++ i.toList)))) := by
    rw [hstr]
    simp only [toList_append,
      show "User: ".toList = ['U', 's', 'e', 'r', ':', ' '] from rfl,
      show " | Timestamp: ".toList =
        [' ', '|', ' ', 'T', 'i', 'm', 'e', 's', 't', 'a', 'm', 'p', ':', ' ']
        from rfl,
      show " | Message: ".toList =
        [' ', '|', ' ', 'M', 'e', 's', 's', 'a', 'g', 'e', ':', ' '] from rfl,
      show " | id: ".toList = [' ', '|', ' ', 'i', 'd', ':', ' '] from rfl,
      List.cons_append, List.nil_append, List.append_assoc]
  have hP1 : ¬ '|' ∈ (['U', 's', 'e', 'r', ':', ' '] ++ n.toList ++ [' ']) :=
    not_mem_append3 (by decide) hnp (by decide)
  have hP2 : ¬ '|' ∈ (' ' :: (['T', 'i', 'm', 'e', 's', 't', 'a', 'm', 'p',
      ':', ' '] ++ t.toList ++ [' '])) := by
    intro h
    rcases List.mem_cons.1 h with h2 | h2
    · exact absurd h2 (by decide)
    · exact not_mem_append3 (by decide) htp (by decide) h2
  have hP3 : ¬ '|' ∈ (' ' :: (['M', 'e', 's', 's', 'a', 'g', 'e', ':', ' ']
      ++ ms.toList ++ [' '])) := by
    intro h
    rcases List.mem_cons.1 h with h2 | h2
    · exact absurd h2 (by decide)
    · exact not_mem_append3 (by decide) hmp (by decide) h2
  have hP4 : ¬ '|' ∈ (' ' :: (['i', 'd', ':', ' '] ++ i.toList)) := by
    intro h
    rcases List.mem_cons.1 h with h2 | h2
    · exact absurd h2 (by decide)
    · rcases List.mem_append.1 h2 with h3 | h3
      · exact absurd h3 (by decide)
      · exact hip h3
  have hsplit : splitOnChar '|' ((build_document m).toList) =
      [(['U', 's', 'e', 'r', ':', ' '] ++ n.toList ++ [' ']),
       (' ' :: (['T', 'i', 'm', 'e', 's', 't', 'a', 'm', 'p', ':', ' '] ++
          t.toList ++ [' '])),
       (' ' :: (['M', 'e', 's', 's', 'a', 'g', 'e', ':', ' '] ++
          ms.toList ++ [' '])),
       (' ' :: (['i', 'd', ':', ' '] ++ i.toList))] := by
    rw [hdoc, splitOnChar_sep_append '|' _ _ hP1,
      splitOnChar_sep_append '|' _ _ hP2, splitOnChar_sep_append '|' _ _ hP3,
      splitOnChar_no_sep '|' _ hP4]
  have hs1 : stripL (['U', 's', 'e', 'r', ':', ' '] ++ n.toList ++ [' ']) =
      ['U', 's', 'e', 'r', ':', ' '] ++ n.toList :=
    stripL_core_trailing _ _ (dropWhile_cons_neg isSpace 'U' _ rfl)
      (by decide) hfn2 hnl0
  have hs2 : stripL (' ' :: (['T', 'i', 'm', 'e', 's', 't', 'a', 'm', 'p',
      ':', ' '] ++ t.toList ++ [' '])) =
      ['T', 'i', 'm', 'e', 's', 't', 'a', 'm', 'p', ':', ' '] ++ t.toList := by
    rw [stripL_cons_space]
    exact stripL_core_trailing _ _ (dropWhile_cons_neg isSpace 'T' _ rfl)
      (by decide) hft2 htl0
  have hs3 : stripL (' ' :: (['M', 'e', 's', 's', 'a', 'g', 'e', ':', ' ']
      ++ ms.toList ++ [' '])) =
      ['M', 'e', 's', 's', 'a', 'g', 'e', ':', ' '] ++ ms.toList := by
    rw [stripL_cons_space]
    exact stripL_core_trailing _ _ (dropWhile_cons_neg isSpace 'M' _ rfl)
      (by decide) hfm2 hml0
  have hs4 : stripL (' ' :: (['i', 'd', ':', ' '] ++ i.toList)) =
      ['i', 'd', ':', ' '] ++ i.toList := by
    rw [stripL_cons_space]
    exact stripL_core _ _ (dropWhile_cons_neg isSpace 'i' _ rfl)
      (by decide) hfi2 hil0
  have hU5 : "User:".toList = ['U', 's', 'e', 'r', ':'] := rfl
  have hT10 : "Timestamp:".toList =
      ['T', 'i', 'm', 'e', 's', 't', 'a', 'm', 'p', ':'] := rfl
  have hM8 : "Message:".toList = ['M', 'e', 's', 's', 'a', 'g', 'e', ':'] :=
    rfl
  have hf1 : parseFieldStep (none, none, none)
      (['U', 's', 'e', 'r', ':', ' '] ++ n.toList) = (some n, none, none) := by
    unfold parseFieldStep
    rw [hU5]
    rw [show startsWithL ['U', 's', 'e', 'r', ':']
        (['U', 's', 'e', 'r', ':', ' '] ++ n.toList) = true from by
      show startsWithL ['U', 's', 'e', 'r', ':']
        (['U', 's', 'e', 'r', ':'] ++ (' ' :: n.toList)) = true
      exact startsWithL_append _ _]
    rw [if_pos (Eq.refl true)]
    show (some (String.mk (stripL (' ' :: n.toList))), none, none) = _
    rw [stripL_cons_space, hstn, mk_toList]
  have hf2 : parseFieldStep (some n, none, none)
      (['T', 'i', 'm', 'e', 's', 't', 'a', 'm', 'p', ':', ' '] ++ t.toList) =
      (some n, some t, none) := by
    unfold parseFieldStep
    rw [hU5, hT10]
    rw [show startsWithL ['U', 's', 'e', 'r', ':']
        (['T', 'i', 'm', 'e', 's', 't', 'a', 'm', 'p', ':', ' '] ++
          t.toList) = false from by
      show startsWithL ('U' :: ['s', 'e', 'r', ':'])
        ('T' :: (['i', 'm', 'e', 's', 't', 'a', 'm', 'p', ':', ' '] ++
          t.toList)) = false
      exact startsWithL_cons_false 'U' 'T' _ _ (by decide)]
    simp only [Bool.false_eq_true, if_false]
    rw [show startsWithL ['T', 'i', 'm', 'e', 's', 't', 'a', 'm', 'p', ':']
        (['T', 'i', 'm', 'e', 's', 't', 'a', 'm', 'p', ':', ' '] ++
          t.toList) = true from by
      show startsWithL ['T', 'i', 'm', 'e', 's', 't', 'a', 'm', 'p', ':']
        (['T', 'i', 'm', 'e', 's', 't', 'a', 'm', 'p', ':'] ++
          (' ' :: t.toList)) = true
      exact startsWithL_append _ _]
    rw [if_pos (Eq.refl true)]
    show (some n, some (String.mk (stripL (' ' :: t.toList))), none) = _
    rw [stripL_cons_space, hstt, mk_toList]
  have hf3 : parseFieldStep (some n, some t, none)
      (['M', 'e', 's', 's', 'a', 'g', 'e', ':', ' '] ++ ms.toList) =
      (some n, some t, some ms) := by
    unfold parseFieldStep
    rw [hU5, hT10, hM8]
    rw [show startsWithL ['U', 's', 'e', 'r', ':']
        (['M', 'e', 's', 's', 'a', 'g', 'e', ':', ' '] ++ ms.toList) = false
        from by
      show startsWithL ('U' :: ['s', 'e', 'r', ':'])
        ('M' :: (['e', 's', 's', 'a', 'g', 'e', ':', ' '] ++ ms.toList)) =
        false
      exact startsWithL_cons_false 'U' 'M' _ _ (by decide)]
    simp only [Bool.false_eq_true, if_false]
    rw [show startsWithL ['T', 'i', 'm', 'e', 's', 't', 'a', 'm', 'p', ':']
        (['M', 'e', 's', 's', 'a', 'g', 'e', ':', ' '] ++ ms.toList) = false
        from by
      show startsWithL ('T' :: ['i', 'm', 'e', 's', 't', 'a', 'm', 'p', ':'])
        ('M' :: (['e', 's', 's', 'a', 'g', 'e', ':', ' '] ++ ms.toList)) =
        false
      exact startsWithL_cons_false 'T' 'M' _ _ (by decide)]
    simp only [Bool.false_eq_true, if_false]
    rw [show startsWithL ['M', 'e', 's', 's', 'a', 'g', 'e', ':']
        (['M', 'e', 's', 's', 'a', 'g', 'e', ':', ' '] ++ ms.toList) = true
        from by
      show startsWithL ['M', 'e', 's', 's', 'a', 'g', 'e', ':']
        (['M', 'e', 's', 's', 'a', 'g', 'e', ':'] ++ (' ' :: ms.toList)) =
        true
      exact startsWithL_append _ _]
    rw [if_pos (Eq.refl true)]
    show (some n, some t, some (String.mk (stripL (' ' :: ms.toList)))) = _
    rw [stripL_cons_space, hstm, mk_toList]
  have hf4 : parseFieldStep (some n, some t, some ms)
      (['i', 'd', ':', ' '] ++ i.toList) = (some n, some t, some ms) := by
    unfold parseFieldStep
    rw [hU5, hT10, hM8]
    rw [show startsWithL ['U', 's', 'e', 'r', ':']
        (['i', 'd', ':', ' '] ++ i.toList) = false from by
      show startsWithL ('U' :: ['s', 'e', 'r', ':'])
        ('i' :: (['d', ':', ' '] ++ i.toList)) = false
      exact startsWithL_cons_false 'U' 'i' _ _ (by decide)]
    rw [show startsWithL ['T', 'i', 'm', 'e', 's', 't', 'a', 'm', 'p', ':']
        (['i', 'd', ':', ' '] ++ i.toList) = false from by
      show startsWithL ('T' :: ['i', 'm', 'e', 's', 't', 'a', 'm', 'p', ':'])
        ('i' :: (['d', ':', ' '] ++ i.toList)) = false
      exact startsWithL_cons_false 'T' 'i' _ _ (by decide)]
    rw [show startsWithL ['M', 'e', 's', 's', 'a', 'g', 'e', ':']
        (['i', 'd', ':', ' '] ++ i.toList) = false from by
      show startsWithL ('M' :: ['e', 's', 's', 'a', 'g', 'e', ':'])
        ('i' :: (['d', ':', ' '] ++ i.toList)) = false
      exact startsWithL_cons_false 'M' 'i' _ _ (by decide)]
    simp only [Bool.false_eq_true, if_false]
  have hpf : parsedFields (build_document m) =
      (some n, some t, some ms) := by
    unfold parsedFields
    rw [hsplit, List.map_cons, List.map_cons, List.map_cons, List.map_cons,
      List.map_nil, hs1, hs2, hs3, hs4, List.foldl_cons, hf1,
      List.foldl_cons, hf2, List.foldl_cons, hf3, List.foldl_cons, hf4,
      List.foldl_nil]
  refine ⟨hstr, ?_⟩
  unfold parse_doc_fields
  rw [hpf]
  show (if n = "" then none else some n, if t = "" then none else some t,
    if ms = "" then none else some ms) = _
  rw [if_neg hn0, if_neg ht0, if_neg hm0]

/-- Witness for C7 amended, at a concrete well-formed record. -/
theorem C7_roundtrip_amended_witness :
    parse_doc_fields (build_document ⟨none, some "Alice", none, some "T1",
        some "hello", some "7", none, none, "raw"⟩) =
      (some "Alice", some "T1", some "hello") :=
  (C7_roundtrip_amended ⟨none, some "Alice", none, some "T1",
      some "hello", some "7", none, none, "raw"⟩ "Alice" "T1" "hello" "7"
    (by decide) rfl rfl rfl rfl rfl
    (by decide) (by decide) (by decide) (by decide) (by decide) (by decide)
    (by decide) (by decide) (by decide) (by decide) (by decide)
    (by decide)).2

end Aurora
